import Mathlib

/-!
Shallow embedding of the core of the Claudecode2opencode-Bridge repository:
the command template-resolution pipeline (src/commands.py), the loader and
front-matter parsing (src/loader.py), and the hook dispatch engine
(src/hooks.py).  Python strings are modelled as lists of characters
(`Str`); subprocess execution, the regex engine used for hook matchers,
the YAML parser and the filesystem are modelled as explicit oracles
passed to the embedded functions.  Scanning functions that advance by
more than one character per step are written with an explicit fuel
argument equal to the length of the scanned string, which keeps them
structurally recursive and hence evaluable by the kernel.
-/

namespace Bridge

/-- Python strings, modelled as lists of characters. -/
abbrev Str := List Char

/-- The backquote character, written via its code point. -/
def btk : Char := Char.ofNat 96

/-- The single-quote character, written via its code point. -/
def sq : Char := Char.ofNat 39

/-- ASCII whitespace as recognised by the source: space, tab, newline,
carriage return, vertical tab, form feed.  (Both the `str.strip` calls and
the regex class in the source also accept further Unicode whitespace;
the ASCII fragment is what the claims exercise.) -/
def pySpace (c : Char) : Bool :=
  c = ' ' || c = '\t' || c = '\n' || c = '\r' || c = Char.ofNat 11 || c = Char.ofNat 12

/-- Python `str.strip()`: drop leading and trailing whitespace. -/
def strip (s : Str) : Str :=
  ((s.dropWhile pySpace).reverse.dropWhile pySpace).reverse

/-- Boolean prefix test on character lists (the usual scan). -/
def isPref : Str → Str → Bool
  | [], _ => true
  | _ :: _, [] => false
  | a :: as, b :: bs => a == b && isPref as bs

/-- Boolean contiguous-substring test: `containsSub pat s` holds when `pat`
occurs as a contiguous run inside `s` (Python `pat in s`). -/
def containsSub (pat : Str) : Str → Bool
  | [] => pat.isEmpty
  | c :: rest => isPref pat (c :: rest) || containsSub pat rest

/-- Python `s.split(",")`: split at every comma, keeping empty pieces. -/
def splitOnComma : Str → List Str
  | [] => [[]]
  | c :: rest =>
    let r := splitOnComma rest
    if c = ',' then [] :: r
    else
      match r with
      | [] => [[c]]
      | x :: xs => (c :: x) :: xs

/-- Fuel-indexed worker for `replaceAll`.  On fuel at least the length of
the scanned string this is Python `str.replace`: a single left-to-right
scan replacing non-overlapping occurrences of `pat` by `repl`; the
replacement text is not rescanned.  (The empty pattern never occurs in the
source; for it the scan leaves the string unchanged.) -/
def replaceAllAux (pat repl : Str) : Nat → Str → Str
  | 0, s => s
  | _ + 1, [] => []
  | fuel + 1, c :: rest =>
    if isPref pat (c :: rest) && !pat.isEmpty then
      repl ++ replaceAllAux pat repl fuel ((c :: rest).drop pat.length)
    else
      c :: replaceAllAux pat repl fuel rest

/-- Python `s.replace(pat, repl)`. -/
def replaceAll (pat repl s : Str) : Str :=
  replaceAllAux pat repl s.length s

/-! ## src/commands.py -/

/-- The literal token `$ARGUMENTS`. -/
def dARGUMENTS : Str := "$ARGUMENTS".toList

/-- The positional token `$i` for index `i` (used for `i` in 1..9, where
`f-string` rendering of the index is a single digit). -/
def dollarDigit (i : Nat) : Str :=
  ['$', Char.ofNat (48 + i)]

/-- The positional-substitution loop of `_substitute_arguments`:
`for i, arg in enumerate(arguments[:9], start=1): content = content.replace(f"${i}", arg)`. -/
def posSub : List Str → Nat → Str → Str
  | [], _, content => content
  | a :: rest, i, content => posSub rest (i + 1) (replaceAll (dollarDigit i) a content)

/-- `CommandExecutor._substitute_arguments`: replace `$ARGUMENTS` by the
space-joined argument list, then the positional `$1`..`$9` tokens by the
first nine arguments, then remove any remaining `$1`..`$9` token. -/
def substitute_arguments (content : Str) (arguments : List Str) : Str :=
  let allArgs := List.intercalate " ".toList arguments
  let c1 := replaceAll dARGUMENTS allArgs content
  let c2 := posSub (arguments.take 9) 1 c1
  List.foldl (fun c i => replaceAll (dollarDigit i) [] c) c2 [1, 2, 3, 4, 5, 6, 7, 8, 9]

/-- Oracle for the filesystem operations used by
`CommandExecutor._resolve_file_references`: path existence, the
regular-file test, reading (which can fail with an exception message),
and the two path renderings `project_root / p` and
`Path(p).expanduser()`. -/
structure FileSystem where
  pexists : Str → Bool
  isFile : Str → Bool
  readText : Str → Except Str Str
  joinRoot : Str → Str
  expanduser : Str → Str

/-- The path `_resolve_file_references` settles on for a reference:
`full_path = project_root / file_path`, replaced by
`Path(file_path).expanduser()` when the first does not exist. -/
def resolvedPath (fs : FileSystem) (filePath : Str) : Str :=
  if fs.pexists (fs.joinRoot filePath) then fs.joinRoot filePath
  else fs.expanduser filePath

/-- The `replace_reference` inner function of
`CommandExecutor._resolve_file_references`. -/
def replace_reference (fs : FileSystem) (filePath : Str) : Str :=
  let fullPath := resolvedPath fs filePath
  if fs.pexists fullPath && fs.isFile fullPath then
    match fs.readText fullPath with
    | Except.ok fileContent =>
        "\n--- Content of ".toList ++ filePath ++ " ---\n".toList ++ fileContent
          ++ "\n--- End of ".toList ++ filePath ++ " ---\n".toList
    | Except.error e =>
        "[Error reading ".toList ++ filePath ++ ": ".toList ++ e ++ "]".toList
  else
    "[File not found: ".toList ++ filePath ++ "]".toList

/-- A character allowed inside an `@path` reference: the regex class
`[^\s@]` of the pattern `@([^\s@]+)`. -/
def refChar (c : Char) : Bool :=
  !pySpace c && !(c == '@')

/-- Fuel-indexed worker for `resolve_file_references`: the `re.sub` scan
with pattern `@([^\s@]+)`.  At an `@` followed by at least one
reference character the maximal run of reference characters is the
match, replaced through `replace_reference`; otherwise the scan moves on
by one character. -/
def resolveFileReferencesAux (fs : FileSystem) : Nat → Str → Str
  | 0, s => s
  | _ + 1, [] => []
  | fuel + 1, c :: rest =>
    if c = '@' then
      let tok := rest.takeWhile refChar
      if tok.isEmpty then c :: resolveFileReferencesAux fs fuel rest
      else replace_reference fs tok ++ resolveFileReferencesAux fs fuel (rest.drop tok.length)
    else
      c :: resolveFileReferencesAux fs fuel rest

/-- `CommandExecutor._resolve_file_references`. -/
def resolve_file_references (fs : FileSystem) (content : Str) : Str :=
  resolveFileReferencesAux fs content.length content

/-- Outcome of a shell subprocess (`subprocess.run`): a completed run
with exit code, captured stdout and stderr; a timeout
(`subprocess.TimeoutExpired`); or any other exception with its message. -/
inductive ProcResult where
  | done (returncode : Int) (stdout : Str) (stderr : Str)
  | timedOut
  | failed (msg : Str)
deriving DecidableEq

/-- The `execute_and_replace` inner function of
`CommandExecutor._execute_inline_bash`: trimmed stdout, a
`[stderr: ...]` suffix only on a non-zero exit with non-empty stderr,
a `[no output]` marker when the accumulated output is empty, and
bracketed notes for timeout and for any other execution error. -/
def execute_and_replace (sh : Str → ProcResult) (command : Str) : Str :=
  match sh command with
  | ProcResult.done rc out err =>
    let output := strip out
    let output :=
      if rc ≠ 0 ∧ err ≠ [] then
        output ++ '\n' :: "[stderr: ".toList ++ strip err ++ "]".toList
      else output
    if output.isEmpty then "[no output]".toList else output
  | ProcResult.timedOut => "[Command timed out: ".toList ++ command ++ "]".toList
  | ProcResult.failed e =>
      "[Error executing ".toList ++ sq :: command ++ sq :: ": ".toList ++ e ++ "]".toList

/-- Fuel-indexed worker for `execute_inline_bash`: the `re.sub` scan with
pattern `!` + backquote + `([^`]+)` + backquote.  A match needs the two
opening characters, a non-empty run of non-backquote characters and a
closing backquote; otherwise the scan moves on by one character. -/
def executeInlineBashAux (sh : Str → ProcResult) : Nat → Str → Str
  | 0, s => s
  | _ + 1, [] => []
  | _ + 1, [c] => [c]
  | fuel + 1, c :: t :: rest =>
    if c = '!' ∧ t = btk then
      let cmd := rest.takeWhile (fun d => !(d == btk))
      if !cmd.isEmpty && ((rest.drop cmd.length).head? == some btk) then
        execute_and_replace sh cmd ++ executeInlineBashAux sh fuel ((rest.drop cmd.length).tail)
      else c :: executeInlineBashAux sh fuel (t :: rest)
    else c :: executeInlineBashAux sh fuel (t :: rest)

/-- `CommandExecutor._execute_inline_bash`. -/
def execute_inline_bash (sh : Str → ProcResult) (content : Str) : Str :=
  executeInlineBashAux sh content.length content

/-! ## src/loader.py -/

/-- Index of the last newline inside a run of whitespace (the position the
greedy regex piece consisting of the whitespace class and a newline
settles on after backtracking from the longest whitespace prefix). -/
def lastNewlineIdx (run : Str) : Option Nat :=
  ((List.range run.length).filter (fun i => run.getD i ' ' = '\n')).getLast?

/-- Scan of the middle delimiter of the front-matter regex: the lazy
group 1 stops at the earliest newline that is followed by `---` whose
following maximal whitespace run contains a newline; group 2 starts after
the last newline of that run.  Returns `(group1, group2)`. -/
def scanMiddle : Str → Option (Str × Str)
  | [] => none
  | c :: rest =>
    match
      (if c == '\n' && isPref "---".toList rest then
        lastNewlineIdx ((rest.drop 3).takeWhile pySpace)
      else none) with
    | some j => some ([], (rest.drop 3).drop (j + 1))
    | none => (scanMiddle rest).map (fun p => (c :: p.1, p.2))

/-- The anchored match of the front-matter pattern (`---`, whitespace run
ending in a newline, lazy group 1, newline + `---`, whitespace run ending
in a newline, group 2; dot matches newline).  The first delimiter prefers
the latest newline of the leading whitespace run and backtracks to
earlier newlines only when no middle delimiter can be found. -/
def fmMatch (s : Str) : Option (Str × Str) :=
  if isPref "---".toList s then
    let rest := s.drop 3
    let run := rest.takeWhile pySpace
    let cands := ((List.range run.length).filter (fun i => run.getD i ' ' = '\n')).reverse
    (cands.map (fun i => scanMiddle (rest.drop (i + 1)))).foldl
      (fun acc r => match acc with | some x => some x | none => r) none
  else none

/-- Abstract YAML mapping returned by `yaml.safe_load` on a header block.
The claims never look inside it, only at whether it is present. -/
abbrev FrontMatter := List (Str × Str)

/-- Oracle for `yaml.safe_load`: an exception (`yaml.YAMLError`), or a
value that may be `None` (for which the source substitutes the empty
mapping). -/
abbrev YamlLoad := Str → Except Unit (Option FrontMatter)

/-- `parse_frontmatter`: split a document into (header mapping, body).
No leading delimited block, or a YAML error on the block, yields the
empty mapping together with the original whole text. -/
def parse_frontmatter (yamlLoad : YamlLoad) (content : Str) : FrontMatter × Str :=
  match fmMatch content with
  | some (g1, g2) =>
    match yamlLoad g1 with
    | Except.ok v => (v.getD [], g2)
    | Except.error _ => ([], content)
  | none => ([], content)

/-- The property the spec words call beginning with the front-matter
delimiter line: the text starts with `---` and the whitespace that
follows contains a newline (so the regex can consume a delimiter line). -/
def specBeginsWithDelimiterLine (s : Str) : Bool :=
  isPref "---".toList s && ((s.drop 3).takeWhile pySpace).any (fun c => c == '\n')

/-- A value appearing inside a top-level list passed to
`parse_allowed_tools`: a string, a nested list (whose elements the source
renders with `str(...)`, so they are modelled as strings), or any other
value (which the source silently skips). -/
inductive ToolsItem where
  | str (s : Str)
  | lst (ss : List Str)
  | other
deriving DecidableEq

/-- A value of the `allowed-tools` / `disallowedTools` front-matter
fields: `None`, a comma-delimited string, a list, or any other value. -/
inductive ToolsValue where
  | noneV
  | str (s : Str)
  | lst (items : List ToolsItem)
  | other
deriving DecidableEq

/-- The per-item contribution of the list branch of
`parse_allowed_tools`. -/
def toolsItemContrib : ToolsItem → List Str
  | ToolsItem.str s => [strip s]
  | ToolsItem.lst ss => ss.map strip
  | ToolsItem.other => []

/-- `parse_allowed_tools`: a comma-delimited string is split, trimmed and
filtered of empty entries; a list is flattened one level with each string
trimmed (no emptiness filter); anything else yields the empty list. -/
def parse_allowed_tools : ToolsValue → List Str
  | ToolsValue.noneV => []
  | ToolsValue.str s => ((splitOnComma s).map strip).filter (fun t => !t.isEmpty)
  | ToolsValue.lst items => items.foldl (fun acc item => acc ++ toolsItemContrib item) []
  | ToolsValue.other => []

/-- Hook configuration (`HookConfig` in src/hooks.py, `Hook` in
src/loader.py): kind, matcher regex, the three kind-specific payload
fields, timeout in seconds, and the once flag. -/
structure HookConfig where
  type : Str
  matcher : Str
  command : Option Str
  prompt : Option Str
  agent : Option Str
  timeout : Nat
  once : Bool
deriving DecidableEq

/-- The `Command` dataclass of src/loader.py.  `nspace` stands for the
source field named `namespace` (a reserved word here); `path` is the
source path rendered as a string; `hooks` carries the mapping produced by
`parse_hooks_from_frontmatter`. -/
structure Command where
  name : Str
  path : Str
  description : Str
  argument_hint : Str
  allowed_tools : List Str
  disallowed_tools : List Str
  model : Option Str
  hooks : List (Str × List HookConfig)
  content : Str
  scope : Str
  nspace : Str
  context : Str
  agent : Option Str
deriving DecidableEq

/-- `CommandExecutor.prepare_prompt`: the three-stage pipeline over the
command body — argument substitution, then file-reference resolution,
then inline command execution. -/
def prepare_prompt (fs : FileSystem) (sh : Str → ProcResult)
    (command : Command) (arguments : List Str) : Str :=
  let content := command.content
  let content := substitute_arguments content arguments
  let content := resolve_file_references fs content
  execute_inline_bash sh content

/-- One discovered command file, after reading and front-matter
splitting: `relParent` is `str(rel_path.parent)` for the file relative to
its commands root (`"."` at top level), `stem` the file stem, and the
front-matter fields are carried already extracted (the reading and
splitting themselves are `parse_frontmatter` above and are not part of
the precedence claims). -/
structure CmdFile where
  relParent : Str
  stem : Str
  path : Str
  description : Str
  argumentHint : Str
  allowedTools : ToolsValue
  disallowedTools : ToolsValue
  model : Option Str
  hooks : List (Str × List HookConfig)
  body : Str
  context : Str
  agent : Option Str
deriving DecidableEq

/-- The namespace derived from the subdirectory of a command file:
`str(rel_path.parent) if rel_path.parent != Path(".") else ""`. -/
def nsOf (f : CmdFile) : Str :=
  if f.relParent = ".".toList then [] else f.relParent

/-- The display name of a command file: `namespace:stem` when the
namespace is non-empty, else the stem. -/
def displayName (f : CmdFile) : Str :=
  if nsOf f = [] then f.stem else nsOf f ++ ':' :: f.stem

/-- The `Command` record `_load_commands` builds for a file under the
given scope. -/
def mkCommand (scope : Str) (f : CmdFile) : Command :=
  { name := displayName f
    path := f.path
    description := f.description
    argument_hint := f.argumentHint
    allowed_tools := parse_allowed_tools f.allowedTools
    disallowed_tools := parse_allowed_tools f.disallowedTools
    model := f.model
    hooks := f.hooks
    content := f.body
    scope := scope
    nspace := nsOf f
    context := f.context
    agent := f.agent }

/-- Assignment into a Python dict modelled as an association list with
unique keys: replace the value of an existing key, else append. -/
def dictInsert {V : Type} : List (Str × V) → Str → V → List (Str × V)
  | [], k, v => [(k, v)]
  | p :: rest, k, v => if p.1 = k then (k, v) :: rest else p :: dictInsert rest k v

/-- Lookup in a Python dict modelled as an association list. -/
def dictFind {V : Type} : List (Str × V) → Str → Option V
  | [], _ => none
  | p :: rest, k => if p.1 = k then some p.2 else dictFind rest k

/-- The `BridgeRegistry` mapping of display name to command record.  (The
subagent, skill and plugin mappings and the pending-hook mapping are
analogous dict fields of the source registry; no claim touches them.) -/
structure Registry where
  commands : List (Str × Command)
deriving DecidableEq

/-- `BridgeLoader._load_commands` over a directory, given the discovered
files in traversal order: the record of each file is written unconditionally
into the commands mapping under its display name. -/
def loadCommands (scope : Str) (files : List CmdFile) (reg : Registry) : Registry :=
  files.foldl
    (fun r f => Registry.mk (dictInsert r.commands (displayName f) (mkCommand scope f))) reg

/-- `BridgeLoader.load_all`, restricted to commands: project-scope
command files are loaded first, then the command files contributed by
plugin discovery (in their load order), into the same registry. -/
def load_all (projectFiles pluginFiles : List CmdFile) : Registry :=
  let reg := loadCommands "project".toList projectFiles (Registry.mk [])
  loadCommands "plugin".toList pluginFiles reg

/-! ## src/hooks.py -/

/-- The lifecycle event types (`HookType`). -/
inductive HookType where
  | PRETOOLUSE | POSTTOOLUSE | POSTTOOLUSEFAILURE | STOP
  | SESSIONSTART | SESSIONEND | SUBAGENTSTART | SUBAGENTSTOP
  | PERMISSIONREQUEST
deriving DecidableEq

/-- The string value of each lifecycle event type. -/
def HookType.value : HookType → Str
  | HookType.PRETOOLUSE => "PreToolUse".toList
  | HookType.POSTTOOLUSE => "PostToolUse".toList
  | HookType.POSTTOOLUSEFAILURE => "PostToolUseFailure".toList
  | HookType.STOP => "Stop".toList
  | HookType.SESSIONSTART => "SessionStart".toList
  | HookType.SESSIONEND => "SessionEnd".toList
  | HookType.SUBAGENTSTART => "SubagentStart".toList
  | HookType.SUBAGENTSTOP => "SubagentStop".toList
  | HookType.PERMISSIONREQUEST => "PermissionRequest".toList

/-- The three dispatch outcomes (`HookResult`). -/
inductive HookResult where
  | CONTINUE | ERROR | BLOCK
deriving DecidableEq

/-- The context passed to hook execution (`HookContext`).  The
`toolInputJson` field stands for `json.dumps(context.tool_input)`, the
only rendering of the input dict the engine ever uses. -/
structure HookContext where
  hookType : HookType
  toolName : Str
  toolInputJson : Str
  toolOutput : Str
  error : Str
  sessionId : Str
  agentName : Str
  pluginRoot : Str
  projectRoot : Str
deriving DecidableEq

/-- The oracles the hook engine interacts with: the shell (command and
timeout to a subprocess outcome), the regex engine
(`re.match(matcher, name, re.IGNORECASE)`, `none` standing for
`re.error`), the two pluggable executors (whose calls can raise), and the
engine `project_root`. -/
structure Oracles where
  run : Str → Nat → ProcResult
  rematch : Str → Str → Option Bool
  promptExec : Option (Str → HookContext → Except Unit Str)
  agentExec : Option (Str → HookContext → Except Unit Str)
  projectRoot : Str

/-- `HookEngine._substitute_variables`: the fixed chain of template
replacements, in source order, in both brace-delimited and bare forms. -/
def substitute_variables (enginePR : Str) (template : Str) (ctx : HookContext) : Str :=
  let pr := if ctx.projectRoot = [] then enginePR else ctx.projectRoot
  let r := template
  let r := replaceAll "$\x7bTOOL_NAME\x7d".toList ctx.toolName r
  let r := replaceAll "$TOOL_NAME".toList ctx.toolName r
  let r := replaceAll "$\x7bTOOL_INPUT\x7d".toList ctx.toolInputJson r
  let r := replaceAll "$TOOL_INPUT".toList ctx.toolInputJson r
  let r := replaceAll "$\x7bTOOL_OUTPUT\x7d".toList ctx.toolOutput r
  let r := replaceAll "$TOOL_OUTPUT".toList ctx.toolOutput r
  let r := replaceAll "$\x7bSESSION_ID\x7d".toList ctx.sessionId r
  let r := replaceAll "$SESSION_ID".toList ctx.sessionId r
  let r := replaceAll "$\x7bAGENT_NAME\x7d".toList ctx.agentName r
  let r := replaceAll "$AGENT_NAME".toList ctx.agentName r
  let r := replaceAll "$\x7bCLAUDE_PLUGIN_ROOT\x7d".toList ctx.pluginRoot r
  let r := replaceAll "$CLAUDE_PLUGIN_ROOT".toList ctx.pluginRoot r
  let r := replaceAll "$\x7bPROJECT_ROOT\x7d".toList pr r
  let r := replaceAll "$PROJECT_ROOT".toList pr r
  r

/-- Python uppercasing of a string (ASCII fragment). -/
def upperStr (s : Str) : Str := s.map Char.toUpper

/-- `HookEngine._matches`: `re.match` on the matcher, with any
`re.error` caught and turned into a non-match. -/
def matchesHook (o : Oracles) (matcher toolName : Str) : Bool :=
  match o.rematch matcher toolName with
  | some b => b
  | none => false

/-- `HookEngine._execute_command_hook`: a falsy command is an ERROR;
otherwise the substituted command runs as a subprocess with the
configured hook timeout, and exit code 0 maps to CONTINUE, 2 to BLOCK, anything else —
like a timeout or an execution exception — to ERROR. -/
def execute_command_hook (o : Oracles) (hook : HookConfig) (ctx : HookContext) : HookResult :=
  match hook.command with
  | none => HookResult.ERROR
  | some cmd =>
    if cmd = [] then HookResult.ERROR
    else
      match o.run (substitute_variables o.projectRoot cmd ctx) hook.timeout with
      | ProcResult.done rc _ _ =>
        if rc = 0 then HookResult.CONTINUE
        else if rc = 2 then HookResult.BLOCK
        else HookResult.ERROR
      | ProcResult.timedOut => HookResult.ERROR
      | ProcResult.failed _ => HookResult.ERROR

/-- `HookEngine._execute_prompt_hook`: needs a payload and an executor;
a raised exception is an ERROR; a non-empty result whose uppercase form
contains `BLOCK` blocks, anything else continues. -/
def execute_prompt_hook (o : Oracles) (hook : HookConfig) (ctx : HookContext) : HookResult :=
  match hook.prompt, o.promptExec with
  | some p, some f =>
    if p = [] then HookResult.ERROR
    else
      match f (substitute_variables o.projectRoot p ctx) ctx with
      | Except.error _ => HookResult.ERROR
      | Except.ok result =>
        if !result.isEmpty && containsSub "BLOCK".toList (upperStr result) then HookResult.BLOCK
        else HookResult.CONTINUE
  | _, _ => HookResult.ERROR

/-- `HookEngine._execute_agent_hook`: same shape as the prompt hook but
through the agent executor and without template substitution. -/
def execute_agent_hook (o : Oracles) (hook : HookConfig) (ctx : HookContext) : HookResult :=
  match hook.agent, o.agentExec with
  | some a, some f =>
    if a = [] then HookResult.ERROR
    else
      match f a ctx with
      | Except.error _ => HookResult.ERROR
      | Except.ok result =>
        if !result.isEmpty && containsSub "BLOCK".toList (upperStr result) then HookResult.BLOCK
        else HookResult.CONTINUE
  | _, _ => HookResult.ERROR

/-- `HookEngine._execute_hook`: dispatch on the hook kind string; an
unknown kind is logged and resolves to ERROR. -/
def execute_hook (o : Oracles) (hook : HookConfig) (ctx : HookContext) : HookResult :=
  if hook.type = "command".toList then execute_command_hook o hook ctx
  else if hook.type = "prompt".toList then execute_prompt_hook o hook ctx
  else if hook.type = "agent".toList then execute_agent_hook o hook ctx
  else HookResult.ERROR

/-- Python `a or b` on the optional payload strings: the left value when
it is truthy (present and non-empty), else the right value. -/
def pyOr (a b : Option Str) : Option Str :=
  if a = none ∨ a = some [] then b else a

/-- The payload part of a once-hook identity:
`hook.command or hook.prompt or hook.agent` rendered into the f-string
(`None` when all three are absent or falsy through to an absent agent). -/
def payloadStr (hook : HookConfig) : Str :=
  match pyOr hook.command (pyOr hook.prompt hook.agent) with
  | none => "None".toList
  | some s => s

/-- The once-hook identity string
`f"{type_str}:{hook.matcher}:{hook.command or hook.prompt or hook.agent}"`. -/
def hook_id (typeStr : Str) (hook : HookConfig) : Str :=
  typeStr ++ ':' :: hook.matcher ++ ':' :: payloadStr hook

/-- `set.add` on the executed-once set, modelled as a duplicate-free
list. -/
def addOnce (s : List Str) (x : Str) : List Str :=
  if x ∈ s then s else x :: s

/-- The dispatch loop of `HookEngine.execute` over the hooks registered
for one event type, instrumented with the list of hooks whose
`_execute_hook` call actually happened: `(result, once-set, executed)`.
A non-matching or already-fired once hook is skipped; after a hook runs,
its identity is added to the once set when the flag is set; a BLOCK
returns immediately; an ERROR downgrades the pending result. -/
def executeLoop (o : Oracles) (typeStr : Str) (ctx : HookContext) :
    List HookConfig → List Str → HookResult → HookResult × List Str × List HookConfig
  | [], once, res => (res, once, [])
  | h :: rest, once, res =>
    if matchesHook o h.matcher ctx.toolName = true then
      if h.once = true ∧ hook_id typeStr h ∈ once then
        executeLoop o typeStr ctx rest once res
      else
        let hr := execute_hook o h ctx
        let once2 := if h.once = true then addOnce once (hook_id typeStr h) else once
        if hr = HookResult.BLOCK then (HookResult.BLOCK, once2, [h])
        else
          let r := executeLoop o typeStr ctx rest once2
            (if hr = HookResult.ERROR then HookResult.ERROR else res)
          (r.1, r.2.1, h :: r.2.2)
    else
      executeLoop o typeStr ctx rest once res

/-- The engine state `HookEngine.execute` reads and writes: the hooks
mapping and the executed-once set. -/
structure EngineState where
  hooks : List (Str × List HookConfig)
  executedOnce : List Str
deriving DecidableEq

/-- `HookEngine.execute`: dispatch all hooks registered for the event
type, returning the overall result, the updated engine state, and the
instrumented list of executed hooks. -/
def executeHooks (o : Oracles) (ht : HookType) (ctx : HookContext) (st : EngineState) :
    HookResult × EngineState × List HookConfig :=
  match dictFind st.hooks ht.value with
  | none => (HookResult.CONTINUE, st, [])
  | some hookList =>
    let r := executeLoop o ht.value ctx hookList st.executedOnce HookResult.CONTINUE
    (r.1, EngineState.mk st.hooks r.2.1, r.2.2)

/-! ## Claims about the hook engine -/

/-- **C1.** For every event type and context, a command-type hook whose
subprocess completes with exit code 2 resolves to BLOCK, and the
dispatch loop returns BLOCK immediately — its executed-hook record is
just that hook, whatever hooks are registered after it, and the same
holds for the full dispatch over the event-type mapping; exit code 0
resolves the hook to CONTINUE and any other exit code to ERROR, in which
cases the loop simply continues over the remaining hooks. -/
theorem claim_C1_exit_codes_and_block_short_circuit :
    ∀ (o : Oracles) (ht : HookType) (ctx : HookContext) (h : HookConfig)
      (post : List HookConfig) (once : List Str) (res : HookResult)
      (c out err : Str) (rc : Int),
      h.type = "command".toList →
      h.command = some c →
      c ≠ [] →
      o.run (substitute_variables o.projectRoot c ctx) h.timeout = ProcResult.done rc out err →
      matchesHook o h.matcher ctx.toolName = true →
      ¬ (h.once = true ∧ hook_id ht.value h ∈ once) →
      ((rc = 0 → execute_command_hook o h ctx = HookResult.CONTINUE) ∧
       (rc = 2 → execute_command_hook o h ctx = HookResult.BLOCK) ∧
       (rc ≠ 0 → rc ≠ 2 → execute_command_hook o h ctx = HookResult.ERROR)) ∧
      (rc = 2 →
        executeLoop o ht.value ctx (h :: post) once res =
          (HookResult.BLOCK,
           (if h.once = true then addOnce once (hook_id ht.value h) else once), [h]) ∧
        executeHooks o ht ctx (EngineState.mk [(ht.value, h :: post)] once) =
          (HookResult.BLOCK,
           EngineState.mk [(ht.value, h :: post)]
             (if h.once = true then addOnce once (hook_id ht.value h) else once), [h])) ∧
      (rc ≠ 0 → rc ≠ 2 →
        executeLoop o ht.value ctx (h :: post) once res =
          (let r := executeLoop o ht.value ctx post
             (if h.once = true then addOnce once (hook_id ht.value h) else once)
             HookResult.ERROR
           (r.1, r.2.1, h :: r.2.2))) := by
  intro o ht ctx h post once res c out err rc htype hcmd hc hrun hm hno
  have hech : execute_command_hook o h ctx =
      (if rc = 0 then HookResult.CONTINUE
       else if rc = 2 then HookResult.BLOCK else HookResult.ERROR) := by
    unfold execute_command_hook
    rw [hcmd]
    simp [hc, hrun]
  have hdisp : execute_hook o h ctx = execute_command_hook o h ctx := by
    unfold execute_hook
    simp [htype]
  refine ⟨⟨?_, ?_, ?_⟩, ?_, ?_⟩
  · intro h0; rw [hech]; simp [h0]
  · intro h2; rw [hech]; simp [h2]
  · intro h0 h2; rw [hech]; simp [h0, h2]
  · intro h2
    have hblock : execute_hook o h ctx = HookResult.BLOCK := by
      rw [hdisp, hech]; simp [h2]
    have hloop : ∀ res0, executeLoop o ht.value ctx (h :: post) once res0 =
        (HookResult.BLOCK,
         (if h.once = true then addOnce once (hook_id ht.value h) else once), [h]) := by
      intro res0
      simp [executeLoop, hm, hno, hblock]
    refine ⟨hloop res, ?_⟩
    unfold executeHooks
    simp [dictFind, hloop HookResult.CONTINUE]
  · intro h0 h2
    have herr : execute_hook o h ctx = HookResult.ERROR := by
      rw [hdisp, hech]; simp [h0, h2]
    simp [executeLoop, hm, hno, herr]

/-- Closed instance of C1: a hook whose subprocess exits with code 2
blocks and short-circuits a subsequently registered hook. -/
def c1Oracle : Oracles :=
  ⟨fun _ _ => ProcResult.done 2 [] "stop".toList, fun _ _ => some true, none, none, []⟩

/-- A concrete dispatch context used by the hook-engine witnesses. -/
def wCtx : HookContext :=
  ⟨HookType.PRETOOLUSE, "Write".toList, [], [], [], [], [], [], []⟩

/-- A concrete command hook used by the hook-engine witnesses. -/
def wHook : HookConfig :=
  ⟨"command".toList, ".*".toList, some "checker.sh".toList, none, none, 600, false⟩

/-- A second concrete hook registered after `wHook`. -/
def wHook2 : HookConfig :=
  ⟨"command".toList, ".*".toList, some "later.sh".toList, none, none, 600, false⟩

theorem claim_C1_witness :
    execute_command_hook c1Oracle wHook wCtx = HookResult.BLOCK ∧
    executeLoop c1Oracle HookType.PRETOOLUSE.value wCtx [wHook, wHook2] []
        HookResult.CONTINUE = (HookResult.BLOCK, [], [wHook]) ∧
    executeHooks c1Oracle HookType.PRETOOLUSE wCtx
        (EngineState.mk [(HookType.PRETOOLUSE.value, [wHook, wHook2])] []) =
      (HookResult.BLOCK,
       EngineState.mk [(HookType.PRETOOLUSE.value, [wHook, wHook2])] [], [wHook]) := by
  have H := claim_C1_exit_codes_and_block_short_circuit c1Oracle HookType.PRETOOLUSE wCtx wHook
    [wHook2] [] HookResult.CONTINUE "checker.sh".toList [] "stop".toList 2
    (by decide) (by decide) (by decide) rfl (by decide) (by decide)
  refine ⟨H.1.2.1 rfl, ?_, ?_⟩
  · have h1 := (H.2.1 rfl).1
    simpa using h1
  · have h2 := (H.2.1 rfl).2
    simpa using h2

/-- **C2.** A hook registered with `once: true` for an event type:
dispatching two matching events executes its payload exactly once (the
executed-hook record is the hook on the first dispatch and empty on the
second), both dispatches return CONTINUE when the hook itself continues,
and the identity string built from the event-type value, the matcher and
the payload identifier is in the executed-once set of the engine right
after the first dispatch whatever the hook outcome was. -/
theorem claim_C2_once_hook_single_execution :
    ∀ (o : Oracles) (ht : HookType) (ctx ctx2 : HookContext) (h : HookConfig),
      h.once = true →
      matchesHook o h.matcher ctx.toolName = true →
      matchesHook o h.matcher ctx2.toolName = true →
      (hook_id ht.value h ∈
        (executeHooks o ht ctx (EngineState.mk [(ht.value, [h])] [])).2.1.executedOnce) ∧
      (execute_hook o h ctx = HookResult.CONTINUE →
        executeHooks o ht ctx (EngineState.mk [(ht.value, [h])] []) =
          (HookResult.CONTINUE,
           EngineState.mk [(ht.value, [h])] [hook_id ht.value h], [h]) ∧
        executeHooks o ht ctx2 (EngineState.mk [(ht.value, [h])] [hook_id ht.value h]) =
          (HookResult.CONTINUE,
           EngineState.mk [(ht.value, [h])] [hook_id ht.value h], [])) := by
  intro o ht ctx ctx2 h honce hm hm2
  constructor
  · by_cases hB : execute_hook o h ctx = HookResult.BLOCK
    · simp [executeHooks, dictFind, executeLoop, hm, honce, hB, addOnce]
    · by_cases hE : execute_hook o h ctx = HookResult.ERROR
      · simp [executeHooks, dictFind, executeLoop, hm, honce, hB, hE, addOnce]
      · simp [executeHooks, dictFind, executeLoop, hm, honce, hB, hE, addOnce]
  · intro hcont
    constructor
    · simp [executeHooks, dictFind, executeLoop, hm, honce, hcont, addOnce]
    · simp [executeHooks, dictFind, executeLoop, hm2, honce]

/-- Oracle for the C2 witness: every command succeeds with empty
output. -/
def c2Oracle : Oracles :=
  ⟨fun _ _ => ProcResult.done 0 [] [], fun _ _ => some true, none, none, []⟩

/-- A concrete once-hook. -/
def wOnceHook : HookConfig :=
  ⟨"command".toList, "Bash".toList, some "cleanup.sh".toList, none, none, 600, true⟩

/-- A second matching dispatch context (a different tool invocation). -/
def wCtxB : HookContext :=
  ⟨HookType.POSTTOOLUSE, "Bash".toList, [], [], [], [], [], [], []⟩

theorem claim_C2_witness :
    (hook_id HookType.POSTTOOLUSE.value wOnceHook ∈
      (executeHooks c2Oracle HookType.POSTTOOLUSE wCtx
        (EngineState.mk [(HookType.POSTTOOLUSE.value, [wOnceHook])] [])).2.1.executedOnce) ∧
    (executeHooks c2Oracle HookType.POSTTOOLUSE wCtx
        (EngineState.mk [(HookType.POSTTOOLUSE.value, [wOnceHook])] []) =
      (HookResult.CONTINUE,
       EngineState.mk [(HookType.POSTTOOLUSE.value, [wOnceHook])]
         [hook_id HookType.POSTTOOLUSE.value wOnceHook], [wOnceHook]) ∧
     executeHooks c2Oracle HookType.POSTTOOLUSE wCtxB
        (EngineState.mk [(HookType.POSTTOOLUSE.value, [wOnceHook])]
          [hook_id HookType.POSTTOOLUSE.value wOnceHook]) =
      (HookResult.CONTINUE,
       EngineState.mk [(HookType.POSTTOOLUSE.value, [wOnceHook])]
         [hook_id HookType.POSTTOOLUSE.value wOnceHook], [])) := by
  have := claim_C2_once_hook_single_execution c2Oracle HookType.POSTTOOLUSE wCtx wCtxB
    wOnceHook (by decide) (by decide) (by decide)
  exact ⟨this.1, this.2 (by decide)⟩

/-- **C9.** A hook whose matcher string is not a valid regular
expression (the regex oracle reports `re.error` on every tool name) is
silently skipped by dispatch for every event type and context: the
matcher test is false, and the dispatch loop over any hook list
containing it behaves exactly as the loop without it — it is never
executed and contributes neither BLOCK nor ERROR. -/
theorem claim_C9_invalid_matcher_skipped :
    ∀ (o : Oracles) (h : HookConfig),
      (∀ t, o.rematch h.matcher t = none) →
      ∀ (ts : Str) (ctx : HookContext) (post : List HookConfig)
        (once : List Str) (res : HookResult),
        matchesHook o h.matcher ctx.toolName = false ∧
        executeLoop o ts ctx (h :: post) once res = executeLoop o ts ctx post once res := by
  intro o h hinv ts ctx post once res
  have hm : matchesHook o h.matcher ctx.toolName = false := by
    unfold matchesHook
    rw [hinv]
  exact ⟨hm, by simp [executeLoop, hm]⟩

/-- Oracle for the C9 witness: the regex engine rejects every pattern
(an invalid matcher such as an unclosed bracket). -/
def c9Oracle : Oracles :=
  ⟨fun _ _ => ProcResult.done 0 [] [], fun _ _ => none, none, none, []⟩

/-- A hook with an invalid matcher. -/
def wBadHook : HookConfig :=
  ⟨"command".toList, "[".toList, some "never.sh".toList, none, none, 600, false⟩

/-! ## Helper lemmas on the string utilities -/

theorem dropWhile_dropWhile_self (p : Char → Bool) :
    ∀ l : Str, (l.dropWhile p).dropWhile p = l.dropWhile p
  | [] => rfl
  | c :: rest => by
    cases h : p c with
    | true => simp [List.dropWhile_cons, h, dropWhile_dropWhile_self p rest]
    | false => simp [List.dropWhile_cons, h]

theorem head?_dropWhile_false (p : Char → Bool) :
    ∀ l : Str, ∀ c, (l.dropWhile p).head? = some c → p c = false
  | [], c => by simp
  | a :: rest, c => by
    cases h : p a with
    | true =>
      simp only [List.dropWhile_cons, h, if_true]
      exact head?_dropWhile_false p rest c
    | false =>
      simp only [List.dropWhile_cons, h, if_false]
      intro hc
      cases hc
      exact h

theorem dropWhile_eq_self_of_head (p : Char → Bool) (l : Str)
    (h : ∀ c, l.head? = some c → p c = false) : l.dropWhile p = l := by
  cases l with
  | nil => rfl
  | cons a rest =>
    have := h a rfl
    simp [List.dropWhile_cons, this]

theorem getLast?_dropWhile (p : Char → Bool) :
    ∀ l : Str, l.dropWhile p ≠ [] → (l.dropWhile p).getLast? = l.getLast?
  | [], h => by simp at h
  | a :: rest, h => by
    cases hp : p a with
    | true =>
      have hd : (a :: rest).dropWhile p = rest.dropWhile p := by
        simp [List.dropWhile_cons, hp]
      rw [hd] at h ⊢
      have hrest : rest ≠ [] := by
        intro hnil
        rw [hnil] at h
        exact h rfl
      rw [getLast?_dropWhile p rest h]
      cases rest with
      | nil => exact absurd rfl hrest
      | cons b r => rw [List.getLast?_cons_cons]
    | false =>
      simp [List.dropWhile_cons, hp]

theorem strip_idem (s : Str) : strip (strip s) = strip s := by
  unfold strip
  set A := s.dropWhile pySpace with hA
  set B := A.reverse.dropWhile pySpace with hB
  have hBr : B.reverse.dropWhile pySpace = B.reverse := by
    apply dropWhile_eq_self_of_head
    intro c hc
    by_cases hBnil : B = []
    · rw [hBnil] at hc
      simp at hc
    · rw [List.head?_reverse] at hc
      rw [hB, getLast?_dropWhile pySpace A.reverse (by rw [← hB]; exact hBnil)] at hc
      rw [List.getLast?_reverse] at hc
      exact head?_dropWhile_false pySpace s c (by rw [← hA]; exact hc)
  rw [hBr, List.reverse_reverse]
  have : B.dropWhile pySpace = B := by
    rw [hB]
    exact dropWhile_dropWhile_self pySpace A.reverse
  rw [this]

/-- Membership in the accumulator fold of the list branch of
`parse_allowed_tools`. -/
theorem mem_foldl_append_contrib {β : Type} (g : β → List Str) :
    ∀ (items : List β) (acc : List Str) (e : Str),
      e ∈ items.foldl (fun a it => a ++ g it) acc →
      e ∈ acc ∨ ∃ it ∈ items, e ∈ g it
  | [], acc, e, h => Or.inl h
  | it :: rest, acc, e, h => by
    rcases mem_foldl_append_contrib g rest (acc ++ g it) e h with h1 | ⟨it2, hit2, he⟩
    · rcases List.mem_append.mp h1 with h2 | h2
      · exact Or.inl h2
      · exact Or.inr ⟨it, List.mem_cons_self it rest, h2⟩
    · exact Or.inr ⟨it2, List.mem_cons_of_mem it hit2, he⟩

/-- Every entry produced by `parse_allowed_tools` is the `strip` of some
source fragment. -/
theorem parse_allowed_tools_entries (v : ToolsValue) (e : Str)
    (h : e ∈ parse_allowed_tools v) : ∃ src, e = strip src := by
  cases v with
  | noneV => simp [parse_allowed_tools] at h
  | other => simp [parse_allowed_tools] at h
  | str s =>
    unfold parse_allowed_tools at h
    have h1 := List.mem_filter.mp h
    rcases List.mem_map.mp h1.1 with ⟨x, _, hx⟩
    exact ⟨x, hx.symm⟩
  | lst items =>
    unfold parse_allowed_tools at h
    rcases mem_foldl_append_contrib toolsItemContrib items [] e h with h1 | ⟨it, _, he⟩
    · simp at h1
    · cases it with
      | str s =>
        simp [toolsItemContrib] at he
        exact ⟨s, he⟩
      | lst ss =>
        simp only [toolsItemContrib] at he
        rcases List.mem_map.mp he with ⟨x, _, hx⟩
        exact ⟨x, hx.symm⟩
      | other => simp [toolsItemContrib] at he

theorem takeWhile_of_all {p : Char → Bool} :
    ∀ l : Str, (∀ c ∈ l, p c = true) → l.takeWhile p = l
  | [], _ => rfl
  | c :: rest, h => by
    simp [List.takeWhile_cons, h c (List.mem_cons_self c rest),
      takeWhile_of_all rest (fun d hd => h d (List.mem_cons_of_mem c hd))]

theorem resolveAux_fuelIrrel (fs : FileSystem) :
    ∀ (f1 f2 : Nat) (s : Str), s.length ≤ f1 → s.length ≤ f2 →
      resolveFileReferencesAux fs f1 s = resolveFileReferencesAux fs f2 s := by
  intro f1
  induction f1 with
  | zero =>
    intro f2 s h1 _
    have hs : s = [] := List.length_eq_zero.mp (Nat.le_zero.mp h1)
    subst hs
    cases f2 <;> rfl
  | succ f ih =>
    intro f2 s h1 h2
    cases s with
    | nil => cases f2 <;> rfl
    | cons c rest =>
      cases f2 with
      | zero => simp at h2
      | succ g =>
        have hr1 : rest.length ≤ f := by
          simp only [List.length_cons] at h1
          omega
        have hr2 : rest.length ≤ g := by
          simp only [List.length_cons] at h2
          omega
        simp only [resolveFileReferencesAux]
        by_cases hc : c = '@'
        · simp only [hc, if_true]
          by_cases ht : (rest.takeWhile refChar).isEmpty
          · simp only [ht, if_true]
            rw [ih g rest hr1 hr2]
          · simp only [ht, if_false]
            have hd1 : (rest.drop (rest.takeWhile refChar).length).length ≤ f := by
              have := List.length_drop (rest.takeWhile refChar).length rest
              omega
            have hd2 : (rest.drop (rest.takeWhile refChar).length).length ≤ g := by
              have := List.length_drop (rest.takeWhile refChar).length rest
              omega
            rw [ih g _ hd1 hd2]
            simp
        · simp only [hc, if_false]
          rw [ih g rest hr1 hr2]

theorem resolveAux_nil (fs : FileSystem) (fuel : Nat) :
    resolveFileReferencesAux fs fuel [] = [] := by
  cases fuel <;> rfl

/-- One reference step of the `re.sub` scan: at an `@` followed by a
well-formed reference and then text opening with a non-reference
character, the reference is consumed and replaced. -/
theorem resolveAux_step (fs : FileSystem) (fuel : Nat) (ref rest2 : Str)
    (hne : ref ≠ []) (hchars : ∀ c ∈ ref, refChar c = true)
    (hstop : rest2.takeWhile refChar = []) :
    resolveFileReferencesAux fs (fuel + 1) ('@' :: (ref ++ rest2)) =
      replace_reference fs ref ++ resolveFileReferencesAux fs fuel rest2 := by
  have htok : (ref ++ rest2).takeWhile refChar = ref := by
    rw [List.takeWhile_append_of_pos (by intro a ha; exact hchars a ha), hstop,
      List.append_nil]
  have hnemp : ref.isEmpty = false := by
    cases ref with
    | nil => exact absurd rfl hne
    | cons a l => rfl
  simp only [resolveFileReferencesAux, if_pos rfl, htok, hnemp, Bool.false_eq_true,
    if_false, List.drop_left]
  simp

/-- **C8.** File references never raise and degrade to inline markers:
a matched `@`-reference goes through `replace_reference` (shown both for
a body that is the bare reference and for one with following text, which
is itself resolved); when neither the project-root-relative path nor the
user-expanded path is an existing regular file the replacement is the
literal `[File not found: <reference>]` marker, and when the settled
path is an existing regular file whose read fails the replacement is the
bracketed read-error note. -/
theorem claim_C8_file_reference_fallbacks :
    ∀ (fs : FileSystem) (ref tail : Str),
      ref ≠ [] →
      (∀ c ∈ ref, refChar c = true) →
      (resolve_file_references fs ('@' :: (ref ++ ' ' :: tail)) =
        replace_reference fs ref ++ ' ' :: resolve_file_references fs tail) ∧
      (resolve_file_references fs ('@' :: ref) = replace_reference fs ref) ∧
      ((fs.pexists (fs.joinRoot ref) = true → fs.isFile (fs.joinRoot ref) = false) →
       (fs.pexists (fs.expanduser ref) = true → fs.isFile (fs.expanduser ref) = false) →
        replace_reference fs ref =
          "[File not found: ".toList ++ ref ++ "]".toList) ∧
      (∀ e, fs.pexists (resolvedPath fs ref) = true →
        fs.isFile (resolvedPath fs ref) = true →
        fs.readText (resolvedPath fs ref) = Except.error e →
        replace_reference fs ref =
          "[Error reading ".toList ++ ref ++ ": ".toList ++ e ++ "]".toList) := by
  intro fs ref tail hne hchars
  refine ⟨?_, ?_, ?_, ?_⟩
  · show resolveFileReferencesAux fs ('@' :: (ref ++ ' ' :: tail)).length
      ('@' :: (ref ++ ' ' :: tail)) = _
    have hlen : ('@' :: (ref ++ ' ' :: tail)).length = (ref.length + tail.length + 1) + 1 := by
      simp [List.length_append]
      omega
    rw [hlen]
    rw [resolveAux_step fs _ ref (' ' :: tail) hne hchars
      (by simp [List.takeWhile_cons, refChar, pySpace])]
    have hstep2 : ref.length + tail.length + 1 = (ref.length + tail.length) + 1 := rfl
    rw [hstep2]
    have hspace : resolveFileReferencesAux fs ((ref.length + tail.length) + 1)
        (' ' :: tail) = ' ' :: resolveFileReferencesAux fs (ref.length + tail.length) tail := by
      simp only [resolveFileReferencesAux]
      rw [if_neg (by decide)]
    rw [hspace, resolveAux_fuelIrrel fs (ref.length + tail.length) tail.length tail
      (by omega) (by omega)]
    rfl
  · show resolveFileReferencesAux fs ('@' :: ref).length ('@' :: ref) = _
    have hlen : ('@' :: ref).length = ref.length + 1 := by simp
    have hr : ('@' :: ref) = '@' :: (ref ++ []) := by rw [List.append_nil]
    rw [hlen, hr, resolveAux_step fs ref.length ref [] hne hchars rfl,
      resolveAux_nil, List.append_nil]
  · intro hjoin hexp
    unfold replace_reference resolvedPath
    by_cases hj : fs.pexists (fs.joinRoot ref) = true
    · simp [hj, hjoin hj]
    · have hj' : fs.pexists (fs.joinRoot ref) = false := by
        cases h : fs.pexists (fs.joinRoot ref) with
        | true => exact absurd h hj
        | false => rfl
      by_cases he : fs.pexists (fs.expanduser ref) = true
      · simp [hj', he, hexp he]
      · have he' : fs.pexists (fs.expanduser ref) = false := by
          cases h : fs.pexists (fs.expanduser ref) with
          | true => exact absurd h he
          | false => rfl
        simp [hj', he']
  · intro e hex hfile hread
    unfold replace_reference
    simp [hex, hfile, hread]

/-- A filesystem oracle on which no path exists. -/
def c8FS : FileSystem :=
  ⟨fun _ => false, fun _ => false, fun _ => Except.error "io".toList,
   fun p => "root/".toList ++ p, fun p => p⟩

theorem claim_C8_witness :
    resolve_file_references c8FS "@missing.txt".toList =
      "[File not found: missing.txt]".toList := by
  have H := claim_C8_file_reference_fallbacks c8FS "missing.txt".toList []
    (by decide) (by decide)
  have h2 := H.2.1
  have h3 := H.2.2.1 (fun h => by exact absurd h (by decide))
    (fun h => by exact absurd h (by decide))
  exact h2.trans (h3.trans (by decide))

theorem eib_nil (sh : Str → ProcResult) (fuel : Nat) :
    executeInlineBashAux sh fuel [] = [] := by
  cases fuel <;> rfl

/-- One token step of the inline-bash `re.sub` scan on a body that is a
single well-formed token. -/
theorem eib_token (sh : Str → ProcResult) (cmd : Str)
    (hne : cmd ≠ []) (hbtk : btk ∉ cmd) :
    execute_inline_bash sh ('!' :: btk :: (cmd ++ [btk])) = execute_and_replace sh cmd := by
  show executeInlineBashAux sh ('!' :: btk :: (cmd ++ [btk])).length
    ('!' :: btk :: (cmd ++ [btk])) = _
  have hlen : ('!' :: btk :: (cmd ++ [btk])).length = (cmd.length + 1) + 2 := by
    simp
  rw [hlen]
  have hchars : ∀ c ∈ cmd, (!(c == btk)) = true := by
    intro c hc
    have : c ≠ btk := fun h => hbtk (h ▸ hc)
    simp [this]
  have htok : (cmd ++ [btk]).takeWhile (fun d => !(d == btk)) = cmd := by
    rw [List.takeWhile_append_of_pos hchars]
    simp [List.takeWhile_cons, List.append_nil]
  have hnemp : cmd.isEmpty = false := by
    cases cmd with
    | nil => exact absurd rfl hne
    | cons a l => rfl
  have hdrop : (cmd ++ [btk]).drop cmd.length = [btk] := List.drop_left cmd [btk]
  show (if '!' = '!' ∧ btk = btk then _ else _) = _
  rw [if_pos ⟨rfl, rfl⟩]
  simp only [htok, hnemp, hdrop]
  norm_num
  exact eib_nil sh _

/-- Shell oracle for the C3 counterexample: the subprocess succeeds
(exit code 0) but also writes to standard error. -/
def c3Shell : Str → ProcResult :=
  fun _ => ProcResult.done 0 "out".toList "err".toList

/-- **C3 (counterexample).** The claim says stderr written on a
successful run is appended as a bracketed suffix; but for a subprocess
that exits 0 with stdout `out` and stderr `err` the token is replaced by
the bare trimmed stdout, with no `[stderr:` suffix anywhere. -/
theorem claim_C3_counterexample :
    execute_inline_bash c3Shell ('!' :: btk :: 'c' :: [btk]) = "out".toList ∧
    containsSub "[stderr".toList
      (execute_inline_bash c3Shell ('!' :: btk :: 'c' :: [btk])) = false := by
  decide

/-- **C3 (amended).** For every inline token whose subprocess completes,
the trimmed standard output replaces the token (degrading to
`[no output]` when the accumulated output is empty); the
`[stderr: ...]` suffix is appended only when the exit code is non-zero
and stderr is non-empty — stderr written on a successful (exit 0) run is
discarded. -/
theorem claim_C3_stderr_only_on_failure :
    ∀ (sh : Str → ProcResult) (cmd out err : Str) (rc : Int),
      cmd ≠ [] → btk ∉ cmd →
      (execute_inline_bash sh ('!' :: btk :: (cmd ++ [btk])) =
        execute_and_replace sh cmd) ∧
      (sh cmd = ProcResult.done 0 out err →
        execute_and_replace sh cmd =
          if (strip out).isEmpty then "[no output]".toList else strip out) ∧
      (sh cmd = ProcResult.done rc out err → rc ≠ 0 → err ≠ [] →
        execute_and_replace sh cmd =
          strip out ++ '\n' :: ("[stderr: ".toList ++ strip err ++ "]".toList)) := by
  intro sh cmd out err rc hne hbtk
  refine ⟨eib_token sh cmd hne hbtk, ?_, ?_⟩
  · intro hrun
    unfold execute_and_replace
    rw [hrun]
    simp
  · intro hrun hrc herr
    have hcond : rc ≠ 0 ∧ err ≠ [] := ⟨hrc, herr⟩
    have hnemp : ∀ (a b : Str), (a ++ '\n' :: b).isEmpty = false := by
      intro a b
      cases a <;> rfl
    simp only [execute_and_replace, hrun, if_pos hcond]
    simp [hnemp, List.append_assoc]

/-! Lemmas on the single-pass replacement scan, towards C4 and C10. -/

theorem replaceAllAux_nil (pat repl : Str) (fuel : Nat) :
    replaceAllAux pat repl fuel [] = [] := by
  cases fuel <;> rfl

theorem replaceAllAux_not_mem (pat repl : Str) (c0 : Char) (hp : pat.head? = some c0) :
    ∀ (fuel : Nat) (s : Str), c0 ∉ s → replaceAllAux pat repl fuel s = s := by
  intro fuel
  induction fuel with
  | zero => intro s _; rfl
  | succ f ih =>
    intro s hmem
    cases s with
    | nil => rfl
    | cons c rest =>
      cases pat with
      | nil => simp at hp
      | cons p0 pt =>
        have hp0 : p0 = c0 := by injection hp
        have hc : c ≠ c0 := fun h => hmem (h ▸ List.mem_cons_self c rest)
        have hpref : isPref (p0 :: pt) (c :: rest) = false := by
          simp only [isPref, Bool.and_eq_false_iff]
          left
          rw [hp0]
          simp only [beq_eq_false_iff_ne]
          exact fun h => hc h.symm
        simp only [replaceAllAux, hpref, Bool.false_and, Bool.false_eq_true, if_false]
        rw [ih rest (fun h => hmem (List.mem_cons_of_mem c h))]

theorem replaceAll_not_mem (pat repl : Str) (c0 : Char) (hp : pat.head? = some c0)
    (s : Str) (hmem : c0 ∉ s) : replaceAll pat repl s = s :=
  replaceAllAux_not_mem pat repl c0 hp s.length s hmem

theorem containsSub_of_tail (p : Str) (c : Char) (u : Str)
    (h : containsSub p u = true) : containsSub p (c :: u) = true := by
  simp [containsSub, h]

theorem containsSub_of_append (p : Str) :
    ∀ (v u : Str), containsSub p u = true → containsSub p (v ++ u) = true
  | [], _, h => h
  | c :: v, u, h => containsSub_of_tail p c (v ++ u) (containsSub_of_append p v u h)

theorem containsSub_cons_false (p : Str) (c : Char) (u : Str)
    (h : containsSub p (c :: u) = false) :
    isPref p (c :: u) = false ∧ containsSub p u = false := by
  have : (isPref p (c :: u) || containsSub p u) = false := h
  exact Bool.or_eq_false_iff.mp this

theorem isPref_exists : ∀ (p s : Str), isPref p s = true → ∃ u, s = p ++ u
  | [], s, _ => ⟨s, rfl⟩
  | a :: p, [], h => by simp [isPref] at h
  | a :: p, b :: s, h => by
    simp only [isPref, Bool.and_eq_true, beq_iff_eq] at h
    rcases isPref_exists p s h.2 with ⟨u, hu⟩
    refine ⟨u, ?_⟩
    rw [← h.1, hu]
    rfl

theorem isPref_single (x c : Char) (l : Str) : isPref [x] (c :: l) = (x == c) := by
  simp [isPref]

theorem isPref_pair (a x c : Char) (l : Str) :
    isPref [a, x] (c :: l) = ((a == c) && isPref [x] l) := rfl

/-- The heart of the C4 analysis: removing all occurrences of a pattern
that starts with a dollar from a string containing no `$$` (i) keeps it
free of `$$`, (ii) creates no two-character `$x` occurrence that was not
already present, and (iii) for a two-character pattern `$c` leaves no
occurrence of the pattern itself. -/
theorem removeScan (t : Str) :
    ∀ (fuel : Nat) (s : Str), s.length ≤ fuel →
      containsSub ['$', '$'] s = false →
      containsSub ['$', '$'] (replaceAllAux ('$' :: t) [] fuel s) = false ∧
      (∀ x : Char,
        containsSub ['$', x] (replaceAllAux ('$' :: t) [] fuel s) = true →
        containsSub ['$', x] s = true) ∧
      (∀ c0 : Char, t = [c0] →
        containsSub ['$', c0] (replaceAllAux ('$' :: t) [] fuel s) = false) := by
  intro fuel
  induction fuel with
  | zero =>
    intro s hlen hdd
    have hs : s = [] := List.length_eq_zero.mp (Nat.le_zero.mp hlen)
    subst hs
    exact ⟨rfl, fun x hx => by simp [containsSub] at hx, fun c0 _ => rfl⟩
  | succ f ih =>
    intro s hlen hdd
    cases s with
    | nil =>
      exact ⟨rfl, fun x hx => by simp [containsSub] at hx, fun c0 _ => rfl⟩
    | cons c rest =>
      have hrestlen : rest.length ≤ f := by
        simp only [List.length_cons] at hlen
        omega
      by_cases hpre : isPref ('$' :: t) (c :: rest) = true
      · -- the pattern matches here: it is removed and the scan continues
        rcases isPref_exists _ _ hpre with ⟨u, hu⟩
        have hstep : replaceAllAux ('$' :: t) [] (f + 1) (c :: rest) =
            replaceAllAux ('$' :: t) [] f u := by
          simp only [replaceAllAux, hpre, Bool.true_and, List.isEmpty_cons,
            Bool.not_false, if_true, List.nil_append]
          rw [hu, List.drop_left]
        have hulen : u.length ≤ f := by
          have : (c :: rest).length = ('$' :: t).length + u.length := by
            rw [hu, List.length_append]
          simp only [List.length_cons] at this hlen
          omega
        have hudd : containsSub ['$', '$'] u = false := by
          cases h : containsSub ['$', '$'] u with
          | false => rfl
          | true =>
            rw [hu] at hdd
            rw [containsSub_of_append _ _ _ h] at hdd
            cases hdd
        rcases ih u hulen hudd with ⟨ihA, ihB, ihC⟩
        rw [hstep]
        refine ⟨ihA, ?_, ihC⟩
        intro x hx
        rw [hu]
        exact containsSub_of_append _ _ _ (ihB x hx)
      · -- no match here: the head character is kept
        have hpref : isPref ('$' :: t) (c :: rest) = false := by
          cases h : isPref ('$' :: t) (c :: rest) with
          | false => rfl
          | true => exact absurd h hpre
        have hstep : replaceAllAux ('$' :: t) [] (f + 1) (c :: rest) =
            c :: replaceAllAux ('$' :: t) [] f rest := by
          simp only [replaceAllAux, hpref, Bool.false_and, Bool.false_eq_true, if_false]
        rcases containsSub_cons_false _ _ _ hdd with ⟨hddhead, hddrest⟩
        rcases ih rest hrestlen hddrest with ⟨ihA, ihB, ihC⟩
        rw [hstep]
        cases rest with
        | nil =>
          rw [replaceAllAux_nil]
          refine ⟨?_, ?_, ?_⟩
          · simp [containsSub, isPref]
          · intro x hx
            simp [containsSub, isPref_pair, isPref_single, isPref] at hx
          · intro c0 _
            simp [containsSub, isPref]
        | cons b r2 =>
          -- shape of the scan of the tail: its head character survives
          have hfpos : ∃ f2, f = f2 + 1 := by
            cases f with
            | zero => simp at hrestlen
            | succ f2 => exact ⟨f2, rfl⟩
          rcases hfpos with ⟨f2, hf2⟩
          by_cases hcd : c = '$'
          · have hbne : ('$' : Char) ≠ b := by
              intro hb
              rw [hcd, ← hb] at hdd
              simp [containsSub, isPref] at hdd
            have hnp2 : isPref ('$' :: t) (b :: r2) = false := by
              simp only [isPref, Bool.and_eq_false_iff]
              left
              simp [hbne]
            have hout : replaceAllAux ('$' :: t) [] f (b :: r2) =
                b :: replaceAllAux ('$' :: t) [] f2 r2 := by
              rw [hf2]
              simp only [replaceAllAux, hnp2, Bool.false_and, Bool.false_eq_true, if_false]
            refine ⟨?_, ?_, ?_⟩
            · -- no new $$
              have h1 : isPref ['$', '$'] (c :: replaceAllAux ('$' :: t) [] f (b :: r2))
                  = false := by
                rw [hout, isPref_pair, isPref_single]
                simp [hbne]
              have : (isPref ['$', '$'] (c :: replaceAllAux ('$' :: t) [] f (b :: r2)) ||
                  containsSub ['$', '$'] (replaceAllAux ('$' :: t) [] f (b :: r2))) = false := by
                rw [h1, ihA]
                rfl
              exact this
            · intro x hx
              have hx2 : (isPref ['$', x] (c :: replaceAllAux ('$' :: t) [] f (b :: r2)) ||
                  containsSub ['$', x] (replaceAllAux ('$' :: t) [] f (b :: r2))) = true := hx
              rcases Bool.or_eq_true_iff.mp hx2 with h1 | h1
              · -- a head occurrence: x must be the surviving head of the tail
                rw [hout, isPref_pair, isPref_single] at h1
                rcases Bool.and_eq_true_iff.mp h1 with ⟨hxc, hxb⟩
                have hxb2 : x = b := by
                  have := beq_iff_eq.mp hxb
                  exact this
                rw [hcd, hxb2]
                have : isPref ['$', b] ('$' :: b :: r2) = true := by
                  rw [isPref_pair, isPref_single]
                  simp
                simp [containsSub, this]
              · exact containsSub_of_tail _ _ _ (ihB x h1)
            · intro c0 ht0
              have hend : containsSub ['$', c0]
                  (replaceAllAux ('$' :: t) [] f (b :: r2)) = false := ihC c0 ht0
              have h1 : isPref ['$', c0] (c :: replaceAllAux ('$' :: t) [] f (b :: r2))
                  = false := by
                rw [hout, isPref_pair, isPref_single]
                cases hb0 : (c0 == b) with
                | false => simp [hb0]
                | true =>
                  -- then the pattern would have matched at the head
                  exfalso
                  have hc0b : c0 = b := beq_iff_eq.mp hb0
                  apply hpre
                  rw [ht0, isPref_pair, isPref_single, hcd]
                  simp [hc0b]
              have : (isPref ['$', c0] (c :: replaceAllAux ('$' :: t) [] f (b :: r2)) ||
                  containsSub ['$', c0] (replaceAllAux ('$' :: t) [] f (b :: r2))) = false := by
                rw [h1, hend]
                rfl
              exact this
          · -- the kept head is not a dollar: nothing new can start here
            have hnotd : ('$' == c) = false := by
              simp only [beq_eq_false_iff_ne]
              exact fun h => hcd h.symm
            refine ⟨?_, ?_, ?_⟩
            · have : (isPref ['$', '$'] (c :: replaceAllAux ('$' :: t) [] f (b :: r2)) ||
                  containsSub ['$', '$'] (replaceAllAux ('$' :: t) [] f (b :: r2))) = false := by
                rw [isPref_pair, hnotd, ihA]
                rfl
              exact this
            · intro x hx
              have hx2 : (isPref ['$', x] (c :: replaceAllAux ('$' :: t) [] f (b :: r2)) ||
                  containsSub ['$', x] (replaceAllAux ('$' :: t) [] f (b :: r2))) = true := hx
              rcases Bool.or_eq_true_iff.mp hx2 with h1 | h1
              · rw [isPref_pair, hnotd] at h1
                simp at h1
              · exact containsSub_of_tail _ _ _ (ihB x h1)
            · intro c0 ht0
              have : (isPref ['$', c0] (c :: replaceAllAux ('$' :: t) [] f (b :: r2)) ||
                  containsSub ['$', c0] (replaceAllAux ('$' :: t) [] f (b :: r2))) = false := by
                rw [isPref_pair, hnotd, ihC c0 ht0]
                rfl
              exact this

/-- The cleanup fold of `_substitute_arguments` over a list of indices:
starting from a `$$`-free string it keeps the string `$$`-free, creates
no new two-character `$x` occurrence, and leaves no `$i` occurrence for
any index of the list. -/
theorem removeFold :
    ∀ (L : List Nat) (s : Str),
      containsSub ['$', '$'] s = false →
      containsSub ['$', '$']
        (L.foldl (fun c i => replaceAll (dollarDigit i) [] c) s) = false ∧
      (∀ x : Char,
        containsSub ['$', x]
          (L.foldl (fun c i => replaceAll (dollarDigit i) [] c) s) = true →
        containsSub ['$', x] s = true) ∧
      (∀ i ∈ L,
        containsSub (dollarDigit i)
          (L.foldl (fun c i => replaceAll (dollarDigit i) [] c) s) = false)
  | [], s, hdd => ⟨hdd, fun _ hx => hx, fun i hi => absurd hi (List.not_mem_nil i)⟩
  | i :: L, s, hdd => by
    have hpat : dollarDigit i = '$' :: [Char.ofNat (48 + i)] := rfl
    have hone := removeScan [Char.ofNat (48 + i)] s.length s (Nat.le_refl _) hdd
    have hstep : (i :: L).foldl (fun c j => replaceAll (dollarDigit j) [] c) s =
        L.foldl (fun c j => replaceAll (dollarDigit j) [] c)
          (replaceAll (dollarDigit i) [] s) := rfl
    have hs' : replaceAll (dollarDigit i) [] s =
        replaceAllAux ('$' :: [Char.ofNat (48 + i)]) [] s.length s := rfl
    rcases removeFold L (replaceAll (dollarDigit i) [] s) (by rw [hs']; exact hone.1)
      with ⟨jA, jB, jC⟩
    rw [hstep]
    refine ⟨jA, ?_, ?_⟩
    · intro x hx
      have := jB x hx
      rw [hs'] at this
      exact hone.2.1 x this
    · intro j hj
      rcases List.mem_cons.mp hj with hj | hj
      · subst hj
        cases h : containsSub (dollarDigit j)
            (L.foldl (fun c i => replaceAll (dollarDigit i) [] c)
              (replaceAll (dollarDigit j) [] s)) with
        | false => rfl
        | true =>
          exfalso
          have := jB (Char.ofNat (48 + j)) h
          rw [hs'] at this
          rw [hone.2.2 (Char.ofNat (48 + j)) rfl] at this
          cases this
      · exact jC j hj

/-- The empty-argument run of `_substitute_arguments` is definitionally
the `$ARGUMENTS` removal followed by the nine-pass cleanup fold. -/
theorem substitute_arguments_nil (content : Str) :
    substitute_arguments content [] =
      List.foldl (fun c i => replaceAll (dollarDigit i) [] c)
        (replaceAll dARGUMENTS [] content) [1, 2, 3, 4, 5, 6, 7, 8, 9] := rfl

/-- **C4 (counterexample).** The claim says the resolved prompt of any
body with zero arguments contains no literal `$1`..`$9`; but the
single-pass replacements can re-expose a placeholder: the body `$$11`
resolves to the string `$1`, which contains `$1`. -/
theorem claim_C4_counterexample :
    substitute_arguments "$$11".toList [] = "$1".toList ∧
    containsSub "$1".toList (substitute_arguments "$$11".toList []) = true := by
  decide

/-- **C4 (amended).** For every command body that does not contain two
adjacent dollar characters, preparing the prompt with an empty argument
list yields a string containing no literal positional placeholder `$1`
through `$9`: every remaining positional placeholder is replaced with
the empty string, and with no `$$` in the body the removals cannot
re-expose a placeholder. -/
theorem claim_C4_no_placeholders_left :
    ∀ (content : Str) (i : Nat),
      containsSub "$$".toList content = false →
      i ∈ [1, 2, 3, 4, 5, 6, 7, 8, 9] →
      containsSub (dollarDigit i) (substitute_arguments content []) = false := by
  intro content i hdd hi
  rw [substitute_arguments_nil]
  have hdd2 : containsSub ['$', '$'] content = false := hdd
  have hARG : replaceAll dARGUMENTS [] content =
      replaceAllAux ('$' :: "ARGUMENTS".toList) [] content.length content := rfl
  have hone := removeScan "ARGUMENTS".toList content.length content (Nat.le_refl _) hdd2
  have hfold := removeFold [1, 2, 3, 4, 5, 6, 7, 8, 9]
    (replaceAll dARGUMENTS [] content) (by rw [hARG]; exact hone.1)
  exact hfold.2.2 i hi

theorem claim_C4_witness :
    containsSub (dollarDigit 1)
      (substitute_arguments "use $1 and $2 today".toList []) = false :=
  claim_C4_no_placeholders_left "use $1 and $2 today".toList 1 (by decide) (by decide)

theorem intercalate_single (sep a : Str) : List.intercalate sep [a] = a := by
  show a ++ ([] : Str) = a
  exact List.append_nil a

theorem replaceAll_ARGUMENTS_self (a : Str) : replaceAll dARGUMENTS a dARGUMENTS = a := by
  show a ++ ([] : Str) = a
  exact List.append_nil a

theorem replaceAll_ARGUMENTS_pos (a : Str) :
    replaceAll dARGUMENTS a "$1".toList = "$1".toList := rfl

theorem replaceAll_pos_self (a : Str) : replaceAll (dollarDigit 1) a "$1".toList = a := by
  show a ++ ([] : Str) = a
  exact List.append_nil a

theorem cleanup_fold_id :
    ∀ (L : List Nat) (s : Str), '$' ∉ s →
      L.foldl (fun c i => replaceAll (dollarDigit i) [] c) s = s
  | [], _, _ => rfl
  | i :: L, s, hmem => by
    have h1 : replaceAll (dollarDigit i) [] s = s :=
      replaceAll_not_mem (dollarDigit i) [] '$' rfl s hmem
    show L.foldl (fun c j => replaceAll (dollarDigit j) [] c)
      (replaceAll (dollarDigit i) [] s) = s
    rw [h1]
    exact cleanup_fold_id L s hmem

theorem substitute_arguments_ARGUMENTS (a : Str) (ha : '$' ∉ a) :
    substitute_arguments "$ARGUMENTS".toList [a] = a := by
  show List.foldl (fun c i => replaceAll (dollarDigit i) [] c)
    (posSub [a] 1 (replaceAll dARGUMENTS (List.intercalate " ".toList [a])
      "$ARGUMENTS".toList)) [1, 2, 3, 4, 5, 6, 7, 8, 9] = a
  rw [intercalate_single]
  have h1 : replaceAll dARGUMENTS a "$ARGUMENTS".toList = a :=
    replaceAll_ARGUMENTS_self a
  rw [h1]
  show List.foldl (fun c i => replaceAll (dollarDigit i) [] c)
    (replaceAll (dollarDigit 1) a a) [1, 2, 3, 4, 5, 6, 7, 8, 9] = a
  rw [replaceAll_not_mem (dollarDigit 1) a '$' rfl a ha]
  exact cleanup_fold_id _ a ha

theorem substitute_arguments_pos (a : Str) (ha : '$' ∉ a) :
    substitute_arguments "$1".toList [a] = a := by
  show List.foldl (fun c i => replaceAll (dollarDigit i) [] c)
    (posSub [a] 1 (replaceAll dARGUMENTS (List.intercalate " ".toList [a])
      "$1".toList)) [1, 2, 3, 4, 5, 6, 7, 8, 9] = a
  rw [intercalate_single, replaceAll_ARGUMENTS_pos]
  show List.foldl (fun c i => replaceAll (dollarDigit i) [] c)
    (replaceAll (dollarDigit 1) a "$1".toList) [1, 2, 3, 4, 5, 6, 7, 8, 9] = a
  rw [replaceAll_pos_self]
  exact cleanup_fold_id _ a ha

theorem substitute_arguments_id (a : Str) (ha : '$' ∉ a) :
    substitute_arguments a [] = a := by
  show List.foldl (fun c i => replaceAll (dollarDigit i) [] c)
    (posSub [] 1 (replaceAll dARGUMENTS (List.intercalate " ".toList []) a))
    [1, 2, 3, 4, 5, 6, 7, 8, 9] = a
  show List.foldl (fun c i => replaceAll (dollarDigit i) [] c)
    (replaceAll dARGUMENTS [] a) [1, 2, 3, 4, 5, 6, 7, 8, 9] = a
  rw [replaceAll_not_mem dARGUMENTS [] '$' rfl a ha]
  exact cleanup_fold_id _ a ha

/-- **C10.** `prepare_prompt` is the composition of inline command
execution after file-reference resolution after argument substitution,
so text injected by stage-1 substitution is interpreted by the later
stages: a body that is the `$ARGUMENTS` placeholder, or the `$1`
placeholder, prepared with one dollar-free argument, is resolved exactly
like a body that literally contained the argument text — any `@path` or
inline-command token inside the argument goes through file resolution
and inline execution. -/
theorem claim_C10_pipeline_composition :
    ∀ (fs : FileSystem) (sh : Str → ProcResult) (a : Str) (cArgs cPos cLit : Command),
      '$' ∉ a →
      cArgs.content = "$ARGUMENTS".toList →
      cPos.content = "$1".toList →
      cLit.content = a →
      (∀ (c : Command) (args : List Str),
        prepare_prompt fs sh c args =
          execute_inline_bash sh (resolve_file_references fs
            (substitute_arguments c.content args))) ∧
      (prepare_prompt fs sh cArgs [a] =
        execute_inline_bash sh (resolve_file_references fs a)) ∧
      (prepare_prompt fs sh cPos [a] =
        execute_inline_bash sh (resolve_file_references fs a)) ∧
      (prepare_prompt fs sh cLit [] =
        execute_inline_bash sh (resolve_file_references fs a)) := by
  intro fs sh a cArgs cPos cLit ha hArgs hPos hLit
  refine ⟨fun c args => rfl, ?_, ?_, ?_⟩
  · show execute_inline_bash sh (resolve_file_references fs
      (substitute_arguments cArgs.content [a])) = _
    rw [hArgs, substitute_arguments_ARGUMENTS a ha]
  · show execute_inline_bash sh (resolve_file_references fs
      (substitute_arguments cPos.content [a])) = _
    rw [hPos, substitute_arguments_pos a ha]
  · show execute_inline_bash sh (resolve_file_references fs
      (substitute_arguments cLit.content [])) = _
    rw [hLit, substitute_arguments_id a ha]

/-- A command whose body is the all-arguments placeholder. -/
def wCmdArgs : Command :=
  ⟨"c1".toList, "c1.md".toList, [], [], [], [], none, [], "$ARGUMENTS".toList,
   "project".toList, [], "main".toList, none⟩

/-- A command whose body is the first positional placeholder. -/
def wCmdPos : Command :=
  ⟨"c2".toList, "c2.md".toList, [], [], [], [], none, [], "$1".toList,
   "project".toList, [], "main".toList, none⟩

/-- A command whose body is the literal argument text. -/
def wCmdLit : Command :=
  ⟨"c3".toList, "c3.md".toList, [], [], [], [], none, [], "@x.md".toList,
   "project".toList, [], "main".toList, none⟩

theorem claim_C10_witness :
    (prepare_prompt c8FS c3Shell wCmdArgs ["@x.md".toList] =
      execute_inline_bash c3Shell (resolve_file_references c8FS "@x.md".toList)) ∧
    (prepare_prompt c8FS c3Shell wCmdPos ["@x.md".toList] =
      execute_inline_bash c3Shell (resolve_file_references c8FS "@x.md".toList)) ∧
    (prepare_prompt c8FS c3Shell wCmdLit [] =
      execute_inline_bash c3Shell (resolve_file_references c8FS "@x.md".toList)) := by
  have H := claim_C10_pipeline_composition c8FS c3Shell "@x.md".toList
    wCmdArgs wCmdPos wCmdLit (by decide) rfl rfl rfl
  exact ⟨H.2.1, H.2.2.1, H.2.2.2⟩

/-- Shell oracle for the C3 witness: a failing subprocess with untrimmed
stdout and stderr. -/
def c3FailShell : Str → ProcResult :=
  fun _ => ProcResult.done 3 " ok ".toList " bad ".toList

theorem claim_C3_witness :
    execute_inline_bash c3FailShell ('!' :: btk :: ("c".toList ++ [btk])) =
      strip " ok ".toList ++ '\n' :: ("[stderr: ".toList ++ strip " bad ".toList
        ++ "]".toList) := by
  have H := claim_C3_stderr_only_on_failure c3FailShell "c".toList " ok ".toList
    " bad ".toList 3 (by decide) (by decide)
  exact H.1.trans (H.2.2 rfl (by decide) (by decide))

/-- **C5 (counterexample).** The claim says every empty entry is
dropped for all three accepted shapes; but for a flat list containing a
whitespace-only string the source keeps the trimmed-to-empty entry: the
output is exactly `[""]`, which contains an empty entry. -/
theorem claim_C5_counterexample :
    parse_allowed_tools (ToolsValue.lst [ToolsItem.str [' ']]) = [[]] ∧
    [] ∈ parse_allowed_tools (ToolsValue.lst [ToolsItem.str [' ']]) := by
  decide

/-- **C5 (amended).** Normalization returns an ordered sequence of
strings in which every entry is whitespace-trimmed (a fixed point of
`strip`); empty entries are dropped only for the comma-delimited string
shape — the flat-list and nested-list shapes keep entries that trim to
the empty string. -/
theorem claim_C5_trimmed_entries :
    ∀ (v : ToolsValue),
      (∀ e ∈ parse_allowed_tools v, strip e = e) ∧
      (∀ s, v = ToolsValue.str s → ∀ e ∈ parse_allowed_tools v, e ≠ []) := by
  intro v
  constructor
  · intro e he
    rcases parse_allowed_tools_entries v e he with ⟨src, hsrc⟩
    rw [hsrc]
    exact strip_idem src
  · intro s hv e he
    rw [hv] at he
    unfold parse_allowed_tools at he
    have h1 := List.mem_filter.mp he
    intro hnil
    rw [hnil] at h1
    simp at h1

theorem claim_C5_witness :
    strip "Bash".toList = "Bash".toList ∧ "Bash".toList ≠ [] := by
  refine ⟨?_, ?_⟩
  · exact (claim_C5_trimmed_entries (ToolsValue.str "Bash, Read".toList)).1
      "Bash".toList (by decide)
  · exact (claim_C5_trimmed_entries (ToolsValue.str "Bash, Read".toList)).2
      "Bash, Read".toList rfl "Bash".toList (by decide)

theorem dictFind_dictInsert_self {V : Type} :
    ∀ (m : List (Str × V)) (k : Str) (v : V), dictFind (dictInsert m k v) k = some v
  | [], k, v => by simp [dictInsert, dictFind]
  | p :: rest, k, v => by
    by_cases h : p.1 = k
    · simp [dictInsert, h, dictFind]
    · simp [dictInsert, h, dictFind, dictFind_dictInsert_self rest k v]

theorem dictFind_dictInsert_ne {V : Type} :
    ∀ (m : List (Str × V)) (k k2 : Str) (v : V), k ≠ k2 →
      dictFind (dictInsert m k v) k2 = dictFind m k2
  | [], k, k2, v, hne => by simp [dictInsert, dictFind, hne]
  | p :: rest, k, k2, v, hne => by
    by_cases h : p.1 = k
    · have hp2 : ¬ p.1 = k2 := by rw [h]; exact hne
      simp [dictInsert, h, dictFind, hne, hp2]
    · by_cases h2 : p.1 = k2
      · have h3 : ¬ k2 = k := fun hh => hne hh.symm
        simp [dictInsert, h, dictFind, h2, h3]
      · simp [dictInsert, h, dictFind, h2, dictFind_dictInsert_ne rest k k2 v hne]

/-- The last file of a list whose display name is `n` (the one whose
registry write survives). -/
def lastWith (n : Str) : List CmdFile → Option CmdFile
  | [] => none
  | f :: rest =>
    match lastWith n rest with
    | some g => some g
    | none => if displayName f = n then some f else none

theorem lastWith_eq_none (n : Str) :
    ∀ (l : List CmdFile), (∀ g ∈ l, displayName g ≠ n) → lastWith n l = none
  | [], _ => rfl
  | f :: rest, h => by
    unfold lastWith
    rw [lastWith_eq_none n rest (fun g hg => h g (List.mem_cons_of_mem f hg))]
    simp [h f (List.mem_cons_self f rest)]

theorem lastWith_cons (n : Str) (f : CmdFile) (l : List CmdFile) :
    lastWith n (f :: l) =
      match lastWith n l with
      | some g => some g
      | none => if displayName f = n then some f else none := rfl

theorem lastWith_append (n : Str) :
    ∀ (u w : List CmdFile),
      lastWith n (u ++ w) =
        match lastWith n w with
        | some g => some g
        | none => lastWith n u
  | [], w => by cases h : lastWith n w <;> simp [lastWith, h]
  | f :: u, w => by
    rw [show (f :: u) ++ w = f :: (u ++ w) from rfl, lastWith_cons,
      lastWith_append n u w, lastWith_cons]
    cases h : lastWith n w <;> simp

/-- What `_load_commands` leaves in the registry at a name: the record of
the last loaded file with that display name, else whatever was there. -/
theorem loadCommands_find (scope n : Str) :
    ∀ (files : List CmdFile) (reg : Registry),
      dictFind (loadCommands scope files reg).commands n =
        match lastWith n files with
        | some f => some (mkCommand scope f)
        | none => dictFind reg.commands n
  | [], reg => by simp [loadCommands, lastWith]
  | f :: rest, reg => by
    have step : loadCommands scope (f :: rest) reg =
        loadCommands scope rest
          (Registry.mk (dictInsert reg.commands (displayName f) (mkCommand scope f))) := rfl
    rw [step, loadCommands_find scope n rest]
    cases h : lastWith n rest with
    | some g => simp [lastWith, h]
    | none =>
      by_cases hf : displayName f = n
      · simp only [lastWith, h, hf, if_true]
        rw [← hf]
        exact dictFind_dictInsert_self _ _ _
      · simp only [lastWith, h, hf, if_false]
        exact dictFind_dictInsert_ne _ _ _ _ hf

/-- **C6.** When a project directory and a subsequently loaded plugin
directory both define a command with the same display name, the registry
retains exactly the plugin-scope record for that name: `load_all` loads
project-scope commands first, each load writes unconditionally, so the
last plugin file with that display name wins, whatever the project files
contained. -/
theorem claim_C6_plugin_scope_wins :
    ∀ (proj pre post : List CmdFile) (f : CmdFile) (n : Str),
      (∃ p ∈ proj, displayName p = n) →
      displayName f = n →
      (∀ g ∈ post, displayName g ≠ n) →
      dictFind (load_all proj (pre ++ f :: post)).commands n =
        some (mkCommand "plugin".toList f) ∧
      (mkCommand "plugin".toList f).scope = "plugin".toList := by
  intro proj pre post f n _ hf hpost
  constructor
  · unfold load_all
    rw [loadCommands_find]
    have hlast : lastWith n (pre ++ f :: post) = some f := by
      rw [lastWith_append]
      have : lastWith n (f :: post) = some f := by
        unfold lastWith
        rw [lastWith_eq_none n post hpost]
        simp [hf]
      rw [this]
    rw [hlast]
  · rfl

/-- A project-scope command file named `foo`. -/
def wProjFile : CmdFile :=
  ⟨".".toList, "foo".toList, "proj/foo.md".toList, "project one".toList, [],
   ToolsValue.noneV, ToolsValue.noneV, none, [], "project body".toList,
   "main".toList, none⟩

/-- A plugin-scope command file also named `foo`. -/
def wPlugFile : CmdFile :=
  ⟨".".toList, "foo".toList, "plug/foo.md".toList, "plugin one".toList, [],
   ToolsValue.noneV, ToolsValue.noneV, none, [], "plugin body".toList,
   "main".toList, none⟩

theorem claim_C6_witness :
    dictFind (load_all [wProjFile] [wPlugFile]).commands "foo".toList =
      some (mkCommand "plugin".toList wPlugFile) ∧
    (mkCommand "plugin".toList wPlugFile).scope = "plugin".toList := by
  have H := claim_C6_plugin_scope_wins [wProjFile] [] [] wPlugFile "foo".toList
    ⟨wProjFile, List.mem_cons_self _ _, by decide⟩ (by decide)
    (fun g hg => absurd hg (List.not_mem_nil g))
  simpa using H

/-- **C7.** `parse_frontmatter` degrades gracefully: a document that
does not begin with the front-matter delimiter line yields the empty
header mapping and the original whole text, and so does any document
whose delimited header block makes the YAML loader raise; the function
is total, so nothing ever propagates to the caller. -/
theorem claim_C7_frontmatter_graceful :
    ∀ (y : YamlLoad) (s : Str),
      (specBeginsWithDelimiterLine s = false → parse_frontmatter y s = ([], s)) ∧
      (∀ g1 g2, fmMatch s = some (g1, g2) → y g1 = Except.error () →
        parse_frontmatter y s = ([], s)) := by
  intro y s
  constructor
  · intro hb
    have hnone : fmMatch s = none := by
      unfold fmMatch
      unfold specBeginsWithDelimiterLine at hb
      cases hp : isPref "---".toList s with
      | false => simp [hp]
      | true =>
        rw [hp] at hb
        simp only [Bool.true_and] at hb
        simp only [hp, if_true]
        have hfilter :
            (List.range ((s.drop 3).takeWhile pySpace).length).filter
              (fun i => ((s.drop 3).takeWhile pySpace).getD i ' ' = '\n') = [] := by
          rw [List.filter_eq_nil_iff]
          intro i hi
          have hlen : i < ((s.drop 3).takeWhile pySpace).length := List.mem_range.mp hi
          rw [List.getD_eq_getElem _ _ hlen]
          intro heq
          have hmem : '\n' ∈ (s.drop 3).takeWhile pySpace := by
            have := List.getElem_mem hlen
            rwa [(by simpa using heq : ((s.drop 3).takeWhile pySpace)[i] = '\n')] at this
          have : ((s.drop 3).takeWhile pySpace).any (fun c => c == '\n') = true :=
            List.any_eq_true.mpr ⟨'\n', hmem, by simp⟩
          rw [this] at hb
          cases hb
        rw [hfilter]
        rfl
    unfold parse_frontmatter
    rw [hnone]
  · intro g1 g2 hm herr
    unfold parse_frontmatter
    rw [hm]
    simp [herr]

theorem claim_C7_witness :
    parse_frontmatter (fun _ => Except.ok none) "hello world".toList =
      ([], "hello world".toList) ∧
    parse_frontmatter (fun _ => Except.error ()) "---\nk: [\n---\nbody".toList =
      ([], "---\nk: [\n---\nbody".toList) := by
  constructor
  · exact (claim_C7_frontmatter_graceful (fun _ => Except.ok none)
      "hello world".toList).1 (by decide)
  · exact (claim_C7_frontmatter_graceful (fun _ => Except.error ())
      "---\nk: [\n---\nbody".toList).2 "k: [".toList "body".toList (by decide) rfl

theorem claim_C9_witness :
    matchesHook c9Oracle wBadHook.matcher wCtx.toolName = false ∧
    executeLoop c9Oracle HookType.PRETOOLUSE.value wCtx [wBadHook, wHook2] []
        HookResult.CONTINUE =
      executeLoop c9Oracle HookType.PRETOOLUSE.value wCtx [wHook2] [] HookResult.CONTINUE :=
  claim_C9_invalid_matcher_skipped c9Oracle wBadHook (fun _ => rfl)
    HookType.PRETOOLUSE.value wCtx [wHook2] [] HookResult.CONTINUE

end Bridge
